import Mathlib

/-!
Shallow embedding of the core of `base.h` (chunked arena allocator, generic
growable vector, arena-backed strings) and proofs about the embedded
operations.  Machine integers (`size_t`, `i32`) are modelled as `Nat`; all
values appearing in the developments below stay far below `2^64`, and the one
place where unsigned wrap-around matters (`StrSlice`'s `end` parameter) is
modelled explicitly with the wrapped value `2^64 - 6`.
-/

namespace BaseH

set_option maxRecDepth 100000

/- ### Arena allocator (base.h lines 324-336, 629-692)

A chunk is modelled by its capacity (`__ArenaChunk.cap`); the singly linked
chain rooted at `arena->root` is modelled as the list `chunks` in chain order,
and `arena->current` as an index into that list.  Buffer contents are not
needed by the claims below, so they are not modelled. -/

structure Arena where
  chunks : List Nat
  current : Nat
  offset : Nat
  chunkSize : Nat
deriving DecidableEq

/-- The walk of `__ArenaNextChunk` over the chunks after `current`:
`while (next) { current = next; if (current->cap > bytes) return; ... }`.
Returns the number of steps to the first chunk with `cap > bytes`, or `none`
when the rest of the chain is exhausted. -/
def walkReuse (bytes : Nat) : List Nat → Option Nat
  | [] => none
  | c :: t => if bytes < c then some 0 else (walkReuse bytes t).map (fun j => j + 1)

/-- `__ArenaNextChunk` (base.h lines 630-644): advance `current` to the first
later chunk whose `cap > bytes`; if none exists, append a fresh chunk of
capacity `bytes` after the tail and make it current. -/
def arenaNextChunk (a : Arena) (bytes : Nat) : Arena :=
  match walkReuse bytes (a.chunks.drop (a.current + 1)) with
  | some j => { a with current := a.current + 1 + j }
  | none => { a with chunks := a.chunks ++ [bytes], current := a.chunks.length }

/-- Capacity of the current chunk (`arena->current->cap`). -/
def curCap (a : Arena) : Nat := a.chunks.getD a.current 0

/-- `ArenaAllocAligned` (base.h lines 646-660).  The source computes
`tail = offset & (al - 1)` and then
`aligned = tail ? arena->offset + al - arena->offset : arena->offset`;
the expression is transcribed literally (it simplifies to `al`).
Returns the new arena state together with the served location as a pair
(chunk index, byte offset inside that chunk). -/
def arenaAllocAligned (a : Arena) (size al : Nat) : Arena × Nat × Nat :=
  let tail := a.offset &&& (al - 1)
  let aligned := if tail ≠ 0 then a.offset + al - a.offset else a.offset
  let a1 : Arena := { a with offset := aligned + size }
  if aligned + size > curCap a then
    let a2 := arenaNextChunk a1 (if size > a.chunkSize then size else a.chunkSize)
    (a2, a2.current, 0)
  else
    (a1, a.current, aligned)

/-- `ArenaAllocChars` (base.h lines 662-664): `ArenaAllocAligned(arena, count, 1)`. -/
def arenaAllocChars (a : Arena) (count : Nat) : Arena × Nat × Nat :=
  arenaAllocAligned a count 1

/-- `ArenaCreate` (base.h lines 685-692): a single chunk of capacity
`chunkSize`, both root and current, offset 0. -/
def ArenaCreate (chunkSize : Nat) : Arena :=
  { chunks := [chunkSize], current := 0, offset := 0, chunkSize := chunkSize }

/-- `n` successive `ArenaAllocChars(arena, count)` calls, keeping the state. -/
def allocCharsN (count : Nat) : Arena → Nat → Arena
  | a, 0 => a
  | a, n + 1 => allocCharsN count (arenaAllocChars a count).1 n

/-- The offset the specification expects: `offset` rounded up to the next
multiple of `al`. -/
def roundUpTo (offset al : Nat) : Nat :=
  if offset % al = 0 then offset else offset + (al - offset % al)

/- ### Generic growable vector (base.h lines 227-308)

Only `length`/`capacity` bookkeeping matters to the claims; element storage is
not modelled.  `VecPush` asserts `length <= capacity`, grows when
`length >= capacity` (baseline 128, doubling afterwards) and then appends. -/

structure Vec where
  length : Nat
  capacity : Nat
deriving DecidableEq

/-- `VecPush` (base.h lines 235-245).  The returned `Bool` records whether the
backing buffer was reallocated (`Realloc` ran). -/
def vecPush (v : Vec) : Vec × Bool :=
  if v.length ≥ v.capacity then
    let newCap := if v.capacity = 0 then 128 else v.capacity * 2
    ({ length := v.length + 1, capacity := newCap }, true)
  else
    ({ v with length := v.length + 1 }, false)

/-- `n` successive pushes. -/
def vecPushN : Vec → Nat → Vec
  | v, 0 => v
  | v, n + 1 => vecPushN (vecPush v).1 n

/-- Number of pushes among the next `n` that double a nonzero capacity
(the baseline `0 → 128` initialization is not a doubling). -/
def vecDoublings : Vec → Nat → Nat
  | _, 0 => 0
  | v, n + 1 =>
    let v2 := (vecPush v).1
    (if v.capacity ≠ 0 ∧ v2.capacity ≠ v.capacity then 1 else 0) + vecDoublings v2 n

/- ### Arena and vector theorems -/

/-- C1: the claim states that `ArenaAllocAligned` rounds the current offset up
to the next multiple of `align`.  The source line
`aligned = tail ? arena->offset + al - arena->offset : arena->offset`
simplifies to `al`, so on an arena whose offset is 17 (after
`ArenaAllocChars(17)`), `ArenaAllocAligned(8, 8)` is served at chunk offset 8 —
not at 24, the next multiple of 8 — and the served region starts inside the
previously returned 17-byte region (8 < 17). -/
theorem c1_alignment_not_rounded_up :
    (arenaAllocAligned (arenaAllocChars (ArenaCreate 64) 17).1 8 8).2 = (0, 8) ∧
    roundUpTo 17 8 = 24 ∧ 8 < 17 := by decide

/-- C2: the claim states that after a new chunk is created and made current the
arena offset is reset to 0 so that the next allocation starts right after the
one just served.  On `Arena(chunkSize = 4)`, after `AllocChars(3)` and a second
`AllocChars(3)` (served at offset 0 of the freshly created chunk 1 of capacity
`max(3, 4) = 4`), the arena offset is the stale value 6, not 0; the next
`AllocChars(1)` therefore spills into a third chunk even though chunk 1 has a
free byte. -/
theorem c2_offset_not_reset :
    allocCharsN 3 (ArenaCreate 4) 2 = ⟨[4, 4], 1, 6, 4⟩ ∧
    (arenaAllocChars (allocCharsN 3 (ArenaCreate 4) 1) 3).2 = (1, 0) ∧
    allocCharsN 1 (allocCharsN 3 (ArenaCreate 4) 2) 1 = ⟨[4, 4, 4], 2, 7, 4⟩ := by
  decide

/-- C5 counterexample: on an arena with chunk size 64, a fourth
`AllocChars(16)` does NOT force a second chunk — the offset reaches exactly 64
and the overflow test `offset > cap` is strict, so the fourth call is still
served from chunk 0 at offset 48 and the chain still has exactly one chunk. -/
theorem c5_fourth_alloc_stays_in_first_chunk :
    (allocCharsN 16 (ArenaCreate 64) 4).chunks.length = 1 ∧
    (arenaAllocChars (allocCharsN 16 (ArenaCreate 64) 3) 16).2 = (0, 48) := by
  decide

/-- C5 (amended): on an arena with chunk size 64, the first four
`AllocChars(16)` calls are all served from the first chunk (at offsets 0, 16,
32, 48, filling it exactly), and it is the fifth `AllocChars(16)` call that
forces the creation of a second chunk and is served from it. -/
theorem c5_amended_fifth_alloc_forces_second_chunk :
    (arenaAllocChars (ArenaCreate 64) 16).2 = (0, 0) ∧
    (arenaAllocChars (allocCharsN 16 (ArenaCreate 64) 1) 16).2 = (0, 16) ∧
    (arenaAllocChars (allocCharsN 16 (ArenaCreate 64) 2) 16).2 = (0, 32) ∧
    (arenaAllocChars (allocCharsN 16 (ArenaCreate 64) 3) 16).2 = (0, 48) ∧
    (allocCharsN 16 (ArenaCreate 64) 4).chunks = [64] ∧
    (arenaAllocChars (allocCharsN 16 (ArenaCreate 64) 4) 16).2 = (1, 0) ∧
    (allocCharsN 16 (ArenaCreate 64) 5).chunks = [64, 64] := by
  decide

/-- C7: `VecPush` reallocates if and only if `length == capacity` held before
the call (given the asserted invariant `length <= capacity`); a zero-initialized
vector pushed 130 times ends with `length = 130` and `capacity = 256`, and
exactly one of those pushes doubled a nonzero capacity (the single growth
128 → 256; the first push only installed the baseline capacity 128). -/
theorem c7_push_realloc_iff_one_growth :
    (∀ v : Vec, v.length ≤ v.capacity → ((vecPush v).2 = true ↔ v.length = v.capacity)) ∧
    vecPushN ⟨0, 0⟩ 130 = ⟨130, 256⟩ ∧
    vecDoublings ⟨0, 0⟩ 130 = 1 := by
  refine ⟨?_, by decide, by decide⟩
  intro v h
  unfold vecPush
  split
  · simp only [true_iff]
    omega
  · simp only [Bool.false_eq_true, false_iff]
    omega

/-- C7 witness: the general reallocation criterion applied to the concrete
vector state `length = 5`, `capacity = 8`. -/
theorem c7_push_realloc_iff_one_growth_witness :
    (vecPush ⟨5, 8⟩).2 = true ↔ (Vec.mk 5 8).length = (Vec.mk 5 8).capacity :=
  c7_push_realloc_iff_one_growth.1 ⟨5, 8⟩ (by decide)

/- ### Strings (base.h lines 192-195, 716-972)

A C `String {size_t length; char *data}` is modelled with `data` as an
optional byte list (`none` models a NULL pointer); the list holds the
`length` bytes the string describes.  Bytes are modelled as `Char`. -/

structure CString where
  length : Nat
  data : Option (List Char)
deriving DecidableEq

/-- `StrIsNull` (base.h lines 736-738) on a string value: `data == NULL`. -/
def strIsNull (s : CString) : Bool := s.data.isNone

/-- `StrEqual` (base.h lines 814-823): lengths must match, then `memcmp` over
`length` bytes (a 0-byte compare succeeds whatever the pointers are). -/
def strEqual (s1 s2 : CString) : Bool :=
  if s1.length ≠ s2.length then false
  else decide ((s1.data.getD []).take s1.length = (s2.data.getD []).take s1.length)

/-- `StrConcat` (base.h lines 773-800): a NULL operand yields a fresh copy of
the other operand; otherwise the result holds `a`'s `length` bytes followed by
`b`'s `length` bytes, with length `a.length + b.length`. -/
def strConcat (s1 s2 : CString) : CString :=
  if strIsNull s1 then
    ⟨s2.length, some ((s2.data.getD []).take s2.length)⟩
  else if strIsNull s2 then
    ⟨s1.length, some ((s1.data.getD []).take s1.length)⟩
  else
    ⟨s1.length + s2.length,
      some ((s1.data.getD []).take s1.length ++ (s2.data.getD []).take s2.length)⟩

/- `StrNewSize` (base.h lines 744-751) for claim C8: its reads from the source
buffer are modelled against a byte memory `src : Nat → Char` (address within
the source buffer → byte). -/

/-- A `memcpy(dst, src, n)` reads exactly the source bytes at offsets
`0 .. n-1`. -/
def memcpyFrom (src : Nat → Char) (n : Nat) : List Char :=
  (List.range n).map src

/-- `memorySize = sizeof(char) * len + 1` (base.h line 745). -/
def strNewSizeMemorySize (len : Nat) : Nat := len + 1

/-- The copy step of `StrNewSize` (base.h line 748):
`memcpy(allocatedString, str, memorySize)` — it reads `memorySize = len + 1`
bytes from the source buffer. -/
def strNewSizeCopy (src : Nat → Char) (len : Nat) : List Char :=
  memcpyFrom src (strNewSizeMemorySize len)

/-- The backing buffer `StrNewSize` returns: the copied bytes with
`addNullTerminator(allocatedString, len)` overwriting position `len`
(base.h line 749). -/
def strNewSizeBuffer (src : Nat → Char) (len : Nat) : List Char :=
  (strNewSizeCopy src len).set len (Char.ofNat 0)

/-- `StrSlice` (base.h lines 959-972).  `start` and `end` are `size_t`, so
they are `Nat` here; the source's `if (end < 0) end = str->length + end;` is
transcribed literally — on the unsigned type the condition never holds.  The
two asserts after it are modelled as `none` (the process aborts).  On success
the result is a fresh copy of the byte range `[start, end)` (via
`StrNewSize(arena, str->data + start, end - start)`). -/
def strSlice (s : List Char) (start endv : Nat) : Option (List Char) :=
  if start ≤ s.length then
    let e := if endv < 0 then s.length + endv else endv
    if start ≤ e then
      if e ≤ s.length then some ((s.drop start).take (e - start))
      else none
    else none
  else none

/- ### StrSplit (base.h lines 827-866) -/

/-- The inner scan of `StrSplit`: starting at `curr`, try every position
`search` with `search <= end - delimiter->length` and return the first one
where `memcmp(search, delimiter->data, delimiter->length) == 0`.  Position 0
of a suffix matches exactly when the suffix's first `d.length` bytes equal
`d`. -/
def findMatch (d : List Char) : List Char → Option Nat
  | [] => if d.length = 0 then some 0 else none
  | c :: t =>
    if t.length + 1 < d.length then none
    else if (c :: t).take d.length = d then some 0
    else (findMatch d t).map (fun j => j + 1)

/-- The outer `while (curr < end)` loop of `StrSplit`, for a non-empty
delimiter.  Each iteration either pushes the final remainder (no match) or
pushes the token before the match and continues after the delimiter.  The
fuel argument only bounds the iteration count; `fuel ≥ s.length` is enough
because every iteration consumes at least one byte. -/
def strSplitLoop (d : List Char) : Nat → List Char → List (List Char)
  | 0, _ => []
  | fuel + 1, s =>
    if s = [] then []
    else
      match findMatch d s with
      | none => [s]
      | some i => s.take i :: strSplitLoop d fuel (s.drop (i + d.length))

/-- `StrSplit` (base.h lines 827-866): a zero-length delimiter splits into one
single-byte token per byte; otherwise the scanning loop above runs. -/
def strSplit (s d : List Char) : List (List Char) :=
  if d.length = 0 then s.map (fun c => [c])
  else strSplitLoop d s.length s

/-- Joining a token list with the delimiter placed between consecutive
tokens. -/
def joinWith (d : List Char) : List (List Char) → List Char
  | [] => []
  | [t] => t
  | t :: t2 :: ts => t ++ d ++ joinWith d (t2 :: ts)

/- ### StrTrim (base.h lines 915-957) -/

/-- `isSpace` (base.h lines 915-917). -/
def isSpace (c : Char) : Bool :=
  c = ' ' || c = '\n' || c = '\t' || c = '\r'

/-- Index of the first non-whitespace byte (the source's `firstChar` scan). -/
def findNonSpace : List Char → Option Nat
  | [] => none
  | c :: t => if isSpace c then (findNonSpace t).map (fun j => j + 1) else some 0

/-- Index of the last non-whitespace byte (the source's `lastChar` scan). -/
def lastNonSpace (l : List Char) : Option Nat :=
  (findNonSpace l.reverse).map (fun j => l.length - 1 - j)

/-- `StrTrim` (base.h lines 919-957) as a function on the byte content:
length 0 is returned unchanged; length 1 becomes empty exactly when the byte
is whitespace; otherwise the bytes from the first to the last non-whitespace
index are kept (all-whitespace input becomes empty). -/
def strTrim (l : List Char) : List Char :=
  if l.length = 0 then l
  else if l.length = 1 then (if isSpace (l.getD 0 ' ') then [] else l)
  else
    match findNonSpace l, lastNonSpace l with
    | some f, some g => (l.drop f).take (g - f + 1)
    | _, _ => []

/- ### String theorems: slice, concat, copy size, equality -/

/-- C4: `StrSlice`'s `end` parameter has type `size_t`, so the argument `-6`
arrives as `2^64 - 6` and the source's `if (end < 0)` branch can never run;
the assert `end <= str->length` then fails and the process aborts (`none`).
Had `end` been resolved to `length - 6 = 5` as the claim describes, the call
would have returned `"hello"`. -/
theorem c4_slice_negative_end_aborts :
    strSlice "hello world".toList 0 (2 ^ 64 - 6) = none ∧
    strSlice "hello world".toList 0 5 = some "hello".toList := by
  decide

/-- C6: for operands whose data is non-NULL (with well-formed backing bytes),
`StrConcat` returns a string of length `a.length + b.length` whose bytes are
exactly `a`'s bytes followed by `b`'s bytes. -/
theorem c6_concat_length_and_bytes :
    ∀ (a b : CString) (da db : List Char),
      a.data = some da → b.data = some db →
      da.length = a.length → db.length = b.length →
      strConcat a b = ⟨a.length + b.length, some (da ++ db)⟩ := by
  intro a b da db ha hb hla hlb
  unfold strConcat strIsNull
  rw [ha, hb]
  simp only [Option.isNone_some, Bool.false_eq_true, if_false, Option.getD_some]
  rw [← hla, ← hlb, List.take_length, List.take_length]

/-- C6 witness: the concatenation contract at the concrete strings
`{1, "x"}` and `{2, "yz"}`. -/
theorem c6_concat_length_and_bytes_witness :
    strConcat ⟨1, some ['x']⟩ ⟨2, some ['y', 'z']⟩ = ⟨1 + 2, some (['x'] ++ ['y', 'z'])⟩ :=
  c6_concat_length_and_bytes ⟨1, some ['x']⟩ ⟨2, some ['y', 'z']⟩ ['x'] ['y', 'z']
    rfl rfl rfl rfl

/-- C8: the claim states `StrNewSize` reads exactly `len` bytes from the
source buffer.  The source's `memcpy(allocatedString, str, memorySize)` uses
`memorySize = len + 1`, so byte `len` of the source is also read: two source
buffers that agree on bytes `0 .. len-1` (here `len = 5`) produce different
copies.  The parts of the claim about the returned buffer do hold: it has
`len + 1` bytes and ends in a null terminator. -/
theorem c8_newsize_reads_past_length :
    memcpyFrom (fun _ => 'a') 5 = memcpyFrom (fun i => if i = 5 then 'b' else 'a') 5 ∧
    strNewSizeCopy (fun _ => 'a') 5 ≠ strNewSizeCopy (fun i => if i = 5 then 'b' else 'a') 5 ∧
    (strNewSizeBuffer (fun _ => 'a') 5).length = 5 + 1 ∧
    (strNewSizeBuffer (fun _ => 'a') 5).getD 5 ' ' = Char.ofNat 0 := by
  decide

/-- C10: `StrEqual` returns `true` for any two strings of length 0, whatever
their data pointers: the length test passes and the `memcmp` compares 0 bytes.
In particular the "no value" string (NULL data) and an empty string with a
non-NULL buffer are distinct values — `StrIsNull` tells them apart — yet
compare equal. -/
theorem c10_equal_ignores_data_when_empty :
    (∀ s1 s2 : CString, s1.length = 0 → s2.length = 0 → strEqual s1 s2 = true) ∧
    CString.mk 0 none ≠ CString.mk 0 (some []) ∧
    strIsNull ⟨0, none⟩ = true ∧ strIsNull ⟨0, some []⟩ = false := by
  refine ⟨?_, by decide, by decide, by decide⟩
  intro s1 s2 h1 h2
  unfold strEqual
  rw [h1, h2]
  simp

/-- C10 witness: the "no value" string and the non-NULL empty string compare
equal. -/
theorem c10_equal_ignores_data_when_empty_witness :
    strEqual ⟨0, none⟩ ⟨0, some []⟩ = true :=
  c10_equal_ignores_data_when_empty.1 ⟨0, none⟩ ⟨0, some []⟩ rfl rfl

/- ### StrSplit: rejoining tokens -/

/-- A successful `findMatch` returns an in-bounds position where the next
`d.length` bytes equal the delimiter. -/
theorem findMatch_spec (d : List Char) :
    ∀ (s : List Char) (i : Nat), findMatch d s = some i →
      i + d.length ≤ s.length ∧ (s.drop i).take d.length = d := by
  intro s
  induction s with
  | nil =>
    intro i h
    rw [findMatch] at h
    by_cases hd : d.length = 0
    · rw [if_pos hd] at h
      obtain rfl : (0 : Nat) = i := by simpa using h
      have : d = [] := List.length_eq_zero.mp hd
      subst this
      simp
    · rw [if_neg hd] at h
      simp at h
  | cons c t ih =>
    intro i h
    rw [findMatch] at h
    by_cases h1 : t.length + 1 < d.length
    · rw [if_pos h1] at h
      simp at h
    · rw [if_neg h1] at h
      by_cases h2 : (c :: t).take d.length = d
      · rw [if_pos h2] at h
        obtain rfl : (0 : Nat) = i := by simpa using h
        refine ⟨by simp; omega, ?_⟩
        simpa using h2
      · rw [if_neg h2] at h
        simp only [Option.map_eq_some'] at h
        obtain ⟨j, hj, rfl⟩ := h
        obtain ⟨hlen, htake⟩ := ih j hj
        refine ⟨by simp; omega, ?_⟩
        simpa using htake

/-- The split loop on an empty remainder yields no token at all. -/
theorem strSplitLoop_nil (d : List Char) : ∀ fuel, strSplitLoop d fuel [] = [] := by
  intro fuel
  cases fuel with
  | zero => rfl
  | succ n => simp [strSplitLoop]

/-- With enough fuel, the split loop on a non-empty remainder yields at least
one token. -/
theorem strSplitLoop_ne_nil (d : List Char) :
    ∀ (fuel : Nat) (s : List Char), s ≠ [] → s.length ≤ fuel →
      strSplitLoop d fuel s ≠ [] := by
  intro fuel s hs hlen
  cases fuel with
  | zero =>
    exact absurd (List.eq_nil_of_length_eq_zero (Nat.le_zero.mp hlen)) hs
  | succ n =>
    rw [strSplitLoop, if_neg hs]
    cases hfm : findMatch d s <;> simp

/-- Unfolding of `joinWith` on a token list with at least two entries. -/
theorem joinWith_cons (d t : List Char) (ts : List (List Char)) (h : ts ≠ []) :
    joinWith d (t :: ts) = t ++ d ++ joinWith d ts := by
  cases ts with
  | nil => exact absurd rfl h
  | cons t2 ts2 => rfl

/-- Rejoining the tokens of the split loop gives back the input, or the input
minus one trailing copy of the delimiter (the loop stops when the remainder
after a match is empty, emitting no final empty token). -/
theorem strSplitLoop_join (d : List Char) (hd : d.length ≠ 0) :
    ∀ (fuel : Nat) (s : List Char), s.length ≤ fuel →
      joinWith d (strSplitLoop d fuel s) = s ∨
      joinWith d (strSplitLoop d fuel s) ++ d = s := by
  intro fuel
  induction fuel with
  | zero =>
    intro s hs
    obtain rfl := List.eq_nil_of_length_eq_zero (Nat.le_zero.mp hs)
    left
    rfl
  | succ n ih =>
    intro s hs
    by_cases hnil : s = []
    · subst hnil
      left
      rw [strSplitLoop_nil]
      rfl
    · cases hfm : findMatch d s with
      | none =>
        left
        rw [strSplitLoop, if_neg hnil, hfm]
        rfl
      | some i =>
        have heq : strSplitLoop d (n + 1) s =
            s.take i :: strSplitLoop d n (s.drop (i + d.length)) := by
          rw [strSplitLoop, if_neg hnil, hfm]
        rw [heq]
        obtain ⟨hlen, htake⟩ := findMatch_spec d s i hfm
        have hdropsplit : s.drop i = d ++ s.drop (i + d.length) := by
          conv_lhs => rw [← List.take_append_drop d.length (s.drop i)]
          rw [htake, List.drop_drop]
        have hsplit : s.take i ++ d ++ s.drop (i + d.length) = s := by
          rw [List.append_assoc, ← hdropsplit, List.take_append_drop]
        have hslen : 1 ≤ s.length := by
          cases s with
          | nil => exact absurd rfl hnil
          | cons c t => simp
        have hrlen : (s.drop (i + d.length)).length ≤ n := by
          rw [List.length_drop]
          omega
        by_cases hrn : s.drop (i + d.length) = []
        · right
          rw [hrn, List.append_nil] at hsplit
          rw [hrn, strSplitLoop_nil]
          show s.take i ++ d = s
          exact hsplit
        · have hne := strSplitLoop_ne_nil d n (s.drop (i + d.length)) hrn hrlen
          rw [joinWith_cons d _ _ hne]
          cases ih (s.drop (i + d.length)) hrlen with
          | inl hj =>
            left
            rw [hj, hsplit]
          | inr hj =>
            right
            rw [List.append_assoc (s.take i ++ d), hj]
            exact hsplit

/-- C3 counterexample: for the input `"a,"` and delimiter `","` — an input
ending with the delimiter — `StrSplit` returns the single token `["a"]` with
no final empty token, so rejoining the tokens with the delimiter gives `"a"`,
not the original string. -/
theorem c3_trailing_delimiter_not_reconstructed :
    strSplit "a,".toList ",".toList = [['a']] ∧
    joinWith ",".toList (strSplit "a,".toList ",".toList) ≠ "a,".toList := by
  decide

/-- C3 (amended): for every string `s` and non-empty delimiter `d`, joining
the tokens returned by `StrSplit` with `d` reconstructs `s` exactly, or
reconstructs `s` minus one trailing copy of `d`: the loop stops when the
remainder after a delimiter match is empty, so an input ending with the
delimiter yields no final empty token. -/
theorem c3_split_join_reconstructs (s d : List Char) (hd : d ≠ []) :
    joinWith d (strSplit s d) = s ∨ joinWith d (strSplit s d) ++ d = s := by
  have hdl : d.length ≠ 0 := by
    simpa [List.length_eq_zero] using hd
  unfold strSplit
  rw [if_neg hdl]
  exact strSplitLoop_join d hdl s.length s (Nat.le_refl _)

/-- C3 witness: the reconstruction theorem applied to `s = "a,b,,c"` and
`d = ","`. -/
theorem c3_split_join_reconstructs_witness :
    ",".toList ≠ ([] : List Char) ∧
    (joinWith ",".toList (strSplit "a,b,,c".toList ",".toList) = "a,b,,c".toList ∨
     joinWith ",".toList (strSplit "a,b,,c".toList ",".toList) ++ ",".toList = "a,b,,c".toList) :=
  ⟨by decide, c3_split_join_reconstructs "a,b,,c".toList ",".toList (by decide)⟩

/- ### StrTrim: idempotence -/

/-- A successful first-non-space scan returns an in-bounds index holding a
non-whitespace byte, with only whitespace before it. -/
theorem findNonSpace_spec :
    ∀ (l : List Char) (f : Nat), findNonSpace l = some f →
      f < l.length ∧ isSpace (l.getD f ' ') = false ∧
        ∀ j, j < f → isSpace (l.getD j ' ') = true := by
  intro l
  induction l with
  | nil =>
    intro f h
    simp [findNonSpace] at h
  | cons c t ih =>
    intro f h
    rw [findNonSpace] at h
    by_cases hc : isSpace c = true
    · rw [if_pos hc] at h
      simp only [Option.map_eq_some'] at h
      obtain ⟨j, hj, rfl⟩ := h
      obtain ⟨hlt, hns, hmin⟩ := ih j hj
      refine ⟨by simp; omega, hns, ?_⟩
      intro k hk
      cases k with
      | zero => simpa using hc
      | succ m => exact hmin m (by omega)
    · rw [if_neg hc] at h
      obtain rfl : (0 : Nat) = f := by simpa using h
      refine ⟨by simp, by simpa using hc, ?_⟩
      intro j hj
      omega
    
/-- `getD` on a reversed list, for an in-bounds index. -/
theorem getD_reverse (l : List Char) (j : Nat) (h : j < l.length) (d : Char) :
    l.reverse.getD j d = l.getD (l.length - 1 - j) d := by
  rw [List.getD_eq_getElem?_getD, List.getD_eq_getElem?_getD, List.getElem?_reverse h]

/-- A successful last-non-space scan returns an in-bounds index holding a
non-whitespace byte, with only whitespace after it. -/
theorem lastNonSpace_spec :
    ∀ (l : List Char) (g : Nat), lastNonSpace l = some g →
      g < l.length ∧ isSpace (l.getD g ' ') = false ∧
        ∀ j, g < j → j < l.length → isSpace (l.getD j ' ') = true := by
  intro l g h
  unfold lastNonSpace at h
  simp only [Option.map_eq_some'] at h
  obtain ⟨j, hj, rfl⟩ := h
  obtain ⟨hjlt, hns, hmin⟩ := findNonSpace_spec l.reverse j hj
  rw [List.length_reverse] at hjlt
  rw [getD_reverse l j hjlt] at hns
  refine ⟨by omega, hns, ?_⟩
  intro m hgm hmlt
  have hj2 : l.length - 1 - m < j := by omega
  have := hmin (l.length - 1 - m) hj2
  rw [getD_reverse l (l.length - 1 - m) (by omega)] at this
  have he : l.length - 1 - (l.length - 1 - m) = m := by omega
  rwa [he] at this

/-- A string whose first and last bytes are not whitespace is a fixed point of
`StrTrim`.  (The hypotheses force the string to be non-empty, since the `getD`
default `' '` is whitespace.) -/
theorem strTrim_fixed (t : List Char)
    (h1 : isSpace (t.getD 0 ' ') = false)
    (h2 : isSpace (t.getD (t.length - 1) ' ') = false) :
    strTrim t = t := by
  cases t with
  | nil => exact absurd h1 (by decide)
  | cons c t2 =>
    cases t2 with
    | nil =>
      have hc : isSpace c = false := h1
      simp [strTrim, hc]
    | cons c2 t3 =>
      have hc : isSpace c = false := h1
      have hlen0 : (c :: c2 :: t3).length ≠ 0 := by simp
      have hlen1 : (c :: c2 :: t3).length ≠ 1 := by simp
      have hf : findNonSpace (c :: c2 :: t3) = some 0 := by
        rw [findNonSpace, if_neg (by simp [hc])]
      have hrev : (c :: c2 :: t3).reverse.getD 0 ' ' =
          (c :: c2 :: t3).getD ((c :: c2 :: t3).length - 1) ' ' := by
        rw [getD_reverse _ 0 (by simp) ' ', Nat.sub_zero]
      have hg : lastNonSpace (c :: c2 :: t3) = some ((c :: c2 :: t3).length - 1) := by
        unfold lastNonSpace
        cases hr : (c :: c2 :: t3).reverse with
        | nil =>
          have : (c :: c2 :: t3).reverse.length = 0 := by rw [hr]; rfl
          simp at this
        | cons c3 r =>
          have hc3 : isSpace c3 = false := by
            have : (c :: c2 :: t3).reverse.getD 0 ' ' = c3 := by rw [hr]; rfl
            rw [this] at hrev
            rw [hrev]
            exact h2
          rw [findNonSpace, if_neg (by simp [hc3])]
          rfl
      rw [strTrim, if_neg hlen0, if_neg hlen1, hf, hg]
      show List.take ((c :: c2 :: t3).length - 1 - 0 + 1) (List.drop 0 (c :: c2 :: t3)) = _
      rw [List.drop_zero]
      have : (c :: c2 :: t3).length - 1 - 0 + 1 = (c :: c2 :: t3).length := by
        simp
      rw [this, List.take_length]

/-- `StrTrim` always produces the empty string or a string whose first and
last bytes are not whitespace. -/
theorem strTrim_trimmed (l : List Char) :
    strTrim l = [] ∨
      (isSpace ((strTrim l).getD 0 ' ') = false ∧
       isSpace ((strTrim l).getD ((strTrim l).length - 1) ' ') = false) := by
  cases l with
  | nil => left; rfl
  | cons c t =>
    cases t with
    | nil =>
      by_cases hc : isSpace c = true
      · left
        simp [strTrim, hc]
      · right
        have hc2 : isSpace c = false := by simpa using hc
        have hval : strTrim [c] = [c] := by simp [strTrim, hc2]
        rw [hval]
        exact ⟨hc2, hc2⟩
    | cons c2 t2 =>
      have hlen0 : (c :: c2 :: t2).length ≠ 0 := by simp
      have hlen1 : (c :: c2 :: t2).length ≠ 1 := by simp
      cases hfo : findNonSpace (c :: c2 :: t2) with
      | none =>
        cases hgo : lastNonSpace (c :: c2 :: t2) with
        | none =>
          left
          rw [strTrim, if_neg hlen0, if_neg hlen1, hfo, hgo]
        | some g =>
          left
          rw [strTrim, if_neg hlen0, if_neg hlen1, hfo, hgo]
      | some f =>
        cases hgo : lastNonSpace (c :: c2 :: t2) with
        | none =>
          left
          rw [strTrim, if_neg hlen0, if_neg hlen1, hfo, hgo]
        | some g =>
          obtain ⟨hflt, hfns, hfmin⟩ := findNonSpace_spec _ f hfo
          obtain ⟨hglt, hgns, hgmax⟩ := lastNonSpace_spec _ g hgo
          have hfg : f ≤ g := by
            by_contra hlt
            push_neg at hlt
            have hsp := hfmin g hlt
            rw [hsp] at hgns
            simp at hgns
          have hval : strTrim (c :: c2 :: t2) =
              List.take (g - f + 1) (List.drop f (c :: c2 :: t2)) := by
            rw [strTrim, if_neg hlen0, if_neg hlen1, hfo, hgo]
          right
          rw [hval]
          have hlen : (List.take (g - f + 1) (List.drop f (c :: c2 :: t2))).length =
              g - f + 1 := by
            rw [List.length_take, List.length_drop]
            omega
          constructor
          · rw [List.getD_eq_getElem?_getD, List.getElem?_take, if_pos (by omega),
              List.getElem?_drop, Nat.add_zero, ← List.getD_eq_getElem?_getD]
            exact hfns
          · rw [hlen, List.getD_eq_getElem?_getD, List.getElem?_take, if_pos (by omega),
              List.getElem?_drop]
            have he : f + (g - f + 1 - 1) = g := by omega
            rw [he, ← List.getD_eq_getElem?_getD]
            exact hgns

/-- C9: `StrTrim` is idempotent — trimming a second time changes neither the
length nor the bytes, because the first trim leaves either the empty string or
a string with non-whitespace first and last bytes, and both are fixed points
of `StrTrim`. -/
theorem c9_trim_idempotent : ∀ l : List Char, strTrim (strTrim l) = strTrim l := by
  intro l
  rcases strTrim_trimmed l with h | ⟨h1, h2⟩
  · rw [h]
    rfl
  · exact strTrim_fixed _ h1 h2
